import Mathlib

/-!
Verification development for the recon framework core
(src/core of the repository): scan registry, rate limiter,
task manager, repository dedup persistence, provider registry,
provider streaming and the quick-scan orchestration path, embedded
shallowly as executable Lean definitions mirroring the Python source.
-/

namespace Recon

/-- Python exception values that the embedded code can raise. -/
inductive PyErr
  | valueError (msg : String)
  | nameError (nm : String)
  | attributeError (attrNm : String)
deriving DecidableEq, Repr

/-! ## Process registry — src/core/scan_registry.py

`ScanRegistry` keeps `active_scans`, a dict from scan id to the list of
live subprocess handles (modelled by numeric pids).  The dict is modelled
as an association list whose keys are kept unique by `register_scan`
inserting only absent keys. -/

/-- State of `ScanRegistry`: the `active_scans` dict, scan id to pids. -/
structure ScanRegistry where
  active_scans : List (String × List Nat)
deriving DecidableEq, Repr

/-- Dict lookup `self.active_scans.get(scan_id)` / `scan_id in self.active_scans`. -/
def ScanRegistry.lookup (r : ScanRegistry) (scan_id : String) : Option (List Nat) :=
  (r.active_scans.find? (fun e => e.1 == scan_id)).map (fun e => e.2)

/-- `register_scan`: `if scan_id not in self.active_scans: self.active_scans[scan_id] = []`. -/
def ScanRegistry.register_scan (r : ScanRegistry) (scan_id : String) : ScanRegistry :=
  if (r.lookup scan_id).isSome then r
  else ⟨r.active_scans ++ [(scan_id, [])]⟩

/-- `add_process`: `if scan_id in self.active_scans: self.active_scans[scan_id].append(process)`.
An unknown id makes the call a no-op. -/
def ScanRegistry.add_process (r : ScanRegistry) (scan_id : String) (p : Nat) : ScanRegistry :=
  ⟨r.active_scans.map (fun e => if e.1 == scan_id then (e.1, e.2 ++ [p]) else e)⟩

/-- `remove_scan`: `if scan_id in self.active_scans: del self.active_scans[scan_id]`. -/
def ScanRegistry.remove_scan (r : ScanRegistry) (scan_id : String) : ScanRegistry :=
  ⟨r.active_scans.filter (fun e => !(e.1 == scan_id))⟩

/-- `cancel_scan`: when `scan_id` is tracked, call `process.terminate()` on every
tracked handle (exceptions from `terminate` are caught per process), delete the
id from the dict and return `True`; otherwise return `False`.  The middle
component lists the pids that received a terminate request. -/
def ScanRegistry.cancel_scan (r : ScanRegistry) (scan_id : String) :
    ScanRegistry × List Nat × Bool :=
  match r.lookup scan_id with
  | some procs => (⟨r.active_scans.filter (fun e => !(e.1 == scan_id))⟩, procs, true)
  | none => (r, [], false)

theorem ScanRegistry.lookup_append_self (l : List (String × List Nat)) (scan_id : String)
    (h : (ScanRegistry.lookup ⟨l⟩ scan_id) = none) :
    ScanRegistry.lookup ⟨l ++ [(scan_id, [])]⟩ scan_id = some [] := by
  induction l with
  | nil => simp [ScanRegistry.lookup]
  | cons e t ih =>
    simp only [ScanRegistry.lookup, List.cons_append, List.find?] at *
    by_cases he : e.1 == scan_id
    · simp [he] at h
    · simp only [he] at h ⊢
      exact ih h

theorem ScanRegistry.lookup_register (r : ScanRegistry) (scan_id : String) :
    ∃ l, (r.register_scan scan_id).lookup scan_id = some l := by
  unfold ScanRegistry.register_scan
  by_cases h : (r.lookup scan_id).isSome
  · simp only [h, if_true]
    exact ⟨(r.lookup scan_id).get h, Option.eq_some_of_isSome h⟩
  · simp only [h, if_false]
    refine ⟨[], ?_⟩
    have hn : r.lookup scan_id = none := by
      cases hz : r.lookup scan_id with
      | none => rfl
      | some v => rw [hz] at h; simp at h
    exact ScanRegistry.lookup_append_self r.active_scans scan_id hn

theorem ScanRegistry.lookup_add_process (r : ScanRegistry) (scan_id : String) (p : Nat)
    (l : List Nat) (h : r.lookup scan_id = some l) :
    (r.add_process scan_id p).lookup scan_id = some (l ++ [p]) := by
  obtain ⟨rl⟩ := r
  induction rl with
  | nil => simp [ScanRegistry.lookup] at h
  | cons e t ih =>
    simp only [ScanRegistry.lookup, ScanRegistry.add_process, List.map, List.find?] at *
    by_cases he : e.1 == scan_id
    · simp only [he, if_true] at h ⊢
      simp only [Option.map] at h
      simp [← Option.some.inj h]
    · simp only [he, if_false] at h ⊢
      simpa [ScanRegistry.lookup, ScanRegistry.add_process, he] using ih h

theorem ScanRegistry.lookup_filter_out (l : List (String × List Nat)) (scan_id : String) :
    ScanRegistry.lookup ⟨l.filter (fun e => !(e.1 == scan_id))⟩ scan_id = none := by
  induction l with
  | nil => simp [ScanRegistry.lookup]
  | cons e t ih =>
    simp only [ScanRegistry.lookup, List.filter] at *
    by_cases he : e.1 == scan_id
    · simp only [he]
      exact ih
    · simp only [he]
      simp only [ScanRegistry.lookup, List.find?, he] at ih ⊢
      exact ih

/-- C4: after `register_scan(id)` and `add_process(id, p)`, `cancel_scan(id)`
sends a terminate request to `p` and to every other handle tracked for `id`,
removes `id` from the registry, and returns true; an immediately following
second `cancel_scan(id)` returns false and changes nothing. -/
theorem cancel_scan_terminates_and_removes (r : ScanRegistry) (scan_id : String) (p : Nat) :
    let r2 := (r.register_scan scan_id).add_process scan_id p
    let c := r2.cancel_scan scan_id
    c.2.2 = true ∧
    p ∈ c.2.1 ∧
    (∀ l, r2.lookup scan_id = some l → ∀ q ∈ l, q ∈ c.2.1) ∧
    c.1.lookup scan_id = none ∧
    (c.1.cancel_scan scan_id).2.2 = false := by
  intro r2 c
  obtain ⟨l0, hl0⟩ := ScanRegistry.lookup_register r scan_id
  have h2 : r2.lookup scan_id = some (l0 ++ [p]) :=
    ScanRegistry.lookup_add_process _ scan_id p l0 hl0
  have hc : c = (⟨r2.active_scans.filter (fun e => !(e.1 == scan_id))⟩, l0 ++ [p], true) := by
    simp [c, ScanRegistry.cancel_scan, h2]
  have hafter : c.1.lookup scan_id = none := by
    rw [hc]
    exact ScanRegistry.lookup_filter_out _ scan_id
  refine ⟨by rw [hc], by rw [hc]; simp, ?_, hafter, ?_⟩
  · intro l hl q hq
    rw [h2] at hl
    rw [hc]
    have hl2 : l = l0 ++ [p] := (Option.some.inj hl).symm
    subst hl2
    simpa using hq
  · simp [ScanRegistry.cancel_scan, hafter]

/-- C10: `register_scan` on an already-registered id is the identity on the
registry state; in particular the handles already tracked for the id survive. -/
theorem register_scan_idempotent (r : ScanRegistry) (scan_id : String)
    (h : (r.lookup scan_id).isSome) :
    r.register_scan scan_id = r := by
  simp [ScanRegistry.register_scan, h]

/-- Witness for C10 at a concrete registry with handles already tracked. -/
theorem register_scan_idempotent_witness :
    ScanRegistry.register_scan ⟨[("scan-1", [7, 8])]⟩ "scan-1" = ⟨[("scan-1", [7, 8])]⟩ :=
  register_scan_idempotent ⟨[("scan-1", [7, 8])]⟩ "scan-1" (by decide)

/-! ## Rate limiter — src/core/rate_limiter.py

`RedisRateLimiter.acquire` computes the current fixed window from
`int(time.time() / period)`, atomically increments the shared counter of
the window key, and proceeds iff the post-increment count is within
`limit`; with `block=False` it returns immediately.  A run of calls whose
increments all land in one window is modelled against that single shared
counter; `expire` only bounds the key lifetime and does not change the
counter within the window. -/

/-- One non-blocking pass of `acquire`: the atomic `INCR` followed by the
`current <= limit` test.  Returns the post-increment counter and the
decision, which is a function of the post-increment value alone. -/
def acquireStep (counter : Nat) (limit : Nat) : Nat × Bool :=
  (counter + 1, decide (counter + 1 ≤ limit))

/-- `n` non-blocking `acquire(key, limit, period, block=False)` calls whose
increments all fall in the same window, applied to the shared counter in the
order the atomic increments commit; returns each call's Boolean outcome. -/
def acquireRun (n : Nat) (counter : Nat) (limit : Nat) : List Bool :=
  match n with
  | 0 => []
  | k + 1 =>
    let r := acquireStep counter limit
    r.2 :: acquireRun k r.1 limit

theorem acquireRun_length (n counter limit : Nat) : (acquireRun n counter limit).length = n := by
  induction n generalizing counter with
  | zero => rfl
  | succ k ih => simp [acquireRun, acquireStep, ih]

theorem acquireRun_count_true (n counter limit : Nat) :
    (acquireRun n counter limit).count true = min n (limit - counter) := by
  induction n generalizing counter with
  | zero => simp [acquireRun]
  | succ k ih =>
    by_cases hc : counter + 1 ≤ limit <;>
      simp [acquireRun, acquireStep, List.count_cons, ih (counter + 1), hc] <;>
      omega

theorem count_true_add_count_false (l : List Bool) :
    l.count true + l.count false = l.length := by
  induction l with
  | nil => rfl
  | cons b t ih =>
    cases b <;> simp [List.count_cons] <;> omega

/-- C5: of `limit+1` non-blocking `acquire` calls whose atomic increments all
fall in the same fixed window of a fresh counter, exactly `limit` return true
and exactly one returns false, and each outcome is decided by the
post-increment counter value alone. -/
theorem acquire_window_exact (limit : Nat) :
    (acquireRun (limit + 1) 0 limit).count true = limit ∧
    (acquireRun (limit + 1) 0 limit).count false = 1 ∧
    (∀ counter, (acquireStep counter limit).2 = decide ((acquireStep counter limit).1 ≤ limit)) := by
  have ht : (acquireRun (limit + 1) 0 limit).count true = limit := by
    rw [acquireRun_count_true]
    omega
  have hlen := acquireRun_length (limit + 1) 0 limit
  have hsum := count_true_add_count_false (acquireRun (limit + 1) 0 limit)
  exact ⟨ht, by omega, fun counter => rfl⟩

/-! ## Task manager — src/core/task_manager.py

`run_tasks_in_parallel` gathers one coroutine per task; with a truthy
`process_timeout` it wraps the gather in `asyncio.wait_for`, and a
`TimeoutError` makes it return `[]`.  Otherwise it filters falsy results,
flattens list results, deduplicates through `set` and sorts.  A task is
modelled by its completion time and its `run_task_wrapper` outcome:
`run_task_wrapper` converts a raised exception into `None`. -/

/-- A Python value returned by a task: a string, a list of strings, or None. -/
inductive PyVal
  | vstr (s : String)
  | vlist (xs : List String)
  | vnone
deriving DecidableEq, Repr

/-- One task handed to `run_tasks_in_parallel`: how long it runs before
completing, whether its body raises, and the value it returns otherwise. -/
structure TaskSpec where
  duration : Nat
  raises : Bool
  value : PyVal
deriving DecidableEq, Repr

/-- `run_task_wrapper`: an exception inside the task is caught, logged and
turned into a `None` result; otherwise the task value is returned. -/
def run_task_wrapper (t : TaskSpec) : PyVal :=
  if t.raises then PyVal.vnone else t.value

/-- Python truthiness used by `[r for r in results if r]`. -/
def pyTruthy : PyVal → Bool
  | PyVal.vnone => false
  | PyVal.vstr s => !(s == "")
  | PyVal.vlist xs => !xs.isEmpty

/-- Flattening step: a list result is extended into `flat_results`, any other
value is appended as a single element. -/
def flattenVal : PyVal → List String
  | PyVal.vstr s => [s]
  | PyVal.vlist xs => xs
  | PyVal.vnone => []

/-- Ascending insertion, modelling Python `sorted`. -/
def insertSorted (s : String) : List String → List String
  | [] => [s]
  | x :: xs => if s ≤ x then s :: x :: xs else x :: insertSorted s xs

/-- `sorted(...)` over strings. -/
def sortStrings (l : List String) : List String := l.foldr insertSorted []

/-- `sorted(list(set(flat_results)))`: dedup then sort. -/
def dedupSorted (l : List String) : List String := sortStrings l.eraseDups

/-- `asyncio.wait_for(gather(...), timeout)` raises `TimeoutError` iff the
timeout is truthy (Python `if process_timeout:`) and some task is still
running when it elapses. -/
def timeoutElapsed (tasks : List TaskSpec) : Option Nat → Bool
  | some T => decide (0 < T) && tasks.any (fun t => decide (T < t.duration))
  | none => false

/-- `run_tasks_in_parallel`: on `TimeoutError` the whole batch is dropped and
`[]` is returned; otherwise the filtered, flattened, deduplicated and sorted
results of the wrappers. -/
def run_tasks_in_parallel (tasks : List TaskSpec) (process_timeout : Option Nat) :
    List String :=
  if timeoutElapsed tasks process_timeout then []
  else
    dedupSorted (((tasks.map run_task_wrapper).filter pyTruthy).map flattenVal).flatten

/-- C3: if the timeout elapses before every task of the batch completes —
in particular when one task runs longer than a positive timeout `T` — then
`run_tasks_in_parallel` returns the empty list: every partial result of a
sibling that finished before the deadline is discarded, and no string
produced by any task is returned. -/
theorem run_tasks_timeout_discards_all (tasks : List TaskSpec) (T : Nat) (t : TaskSpec)
    (hmem : t ∈ tasks) (hT : 0 < T) (hslow : T < t.duration) :
    run_tasks_in_parallel tasks (some T) = [] ∧
    ∀ s : String, s ∉ run_tasks_in_parallel tasks (some T) := by
  have he : timeoutElapsed tasks (some T) = true := by
    simp only [timeoutElapsed, Bool.and_eq_true, decide_eq_true_eq, List.any_eq_true]
    exact ⟨hT, t, hmem, by simpa using hslow⟩
  constructor
  · simp [run_tasks_in_parallel, he]
  · intro s
    simp [run_tasks_in_parallel, he]

/-- Witness for C3: a fast sibling finishing with results at time 1 contributes
nothing when a sibling task sleeps past the timeout of 10. -/
theorem run_tasks_timeout_discards_all_witness :
    run_tasks_in_parallel
      [⟨1, false, PyVal.vlist ["a.example.com"]⟩, ⟨100, false, PyVal.vlist ["b.example.com"]⟩]
      (some 10) = [] :=
  (run_tasks_timeout_discards_all
    [⟨1, false, PyVal.vlist ["a.example.com"]⟩, ⟨100, false, PyVal.vlist ["b.example.com"]⟩]
    10 ⟨100, false, PyVal.vlist ["b.example.com"]⟩
    (by decide) (by decide) (by decide)).1

/-! ## Provider registry — src/core/registry.py and the wrapper head of
src/core/orchestrator.py

`ProviderRegistry._providers` maps lowercased names to provider classes
(modelled by their class-name tag).  `get_provider` raises `ValueError`
for an unknown name and otherwise returns a fresh instance — a Python
object, never `None`.  `run_provider_wrapper` fetches the provider and
then tests `if not provider:`; the instance is wrapped in `Option` so
that this None-test is expressible. -/

/-- An instantiated provider object, tagged with its class name. -/
structure ProviderInst where
  cls : String
deriving DecidableEq, Repr

/-- `ProviderRegistry.get_provider`: look up `name.lower()` in `_providers`;
raise `ValueError` when absent, else instantiate the class.  The `Option`
in the success value records whether the returned Python value is `None`. -/
def get_provider (providers : List (String × String)) (nm : String) :
    Except PyErr (Option ProviderInst) :=
  match (providers.find? (fun e => e.1 == nm.toLower)).map (fun e => e.2) with
  | none => Except.error (PyErr.valueError ("Provider " ++ nm ++ " not found in registry."))
  | some cls => Except.ok (some ⟨cls⟩)

/-- Head of `run_provider_wrapper`: `provider = registry.get_provider(provider_name)`
followed by `if not provider: ... return []`; the streaming and persistence
body that runs with the obtained provider is abstracted as `rest`. -/
def run_provider_wrapper_head (providers : List (String × String)) (provider_name : String)
    (rest : ProviderInst → Except PyErr (List String)) : Except PyErr (List String) :=
  match get_provider providers provider_name with
  | Except.error e => Except.error e
  | Except.ok none => Except.ok []
  | Except.ok (some provider) => rest provider

/-- C9: `get_provider` never returns `None` — it raises `ValueError` for an
unknown name — so the not-found branch of `run_provider_wrapper` that would
return an empty result list is unreachable, and invoking the wrapper with an
unregistered provider name propagates the `ValueError` instead of producing
`[]`. -/
theorem get_provider_never_none (providers : List (String × String)) (nm : String)
    (rest : ProviderInst → Except PyErr (List String)) :
    (get_provider providers nm ≠ Except.ok none) ∧
    (providers.find? (fun e => e.1 == nm.toLower) = none →
      run_provider_wrapper_head providers nm rest =
        Except.error (PyErr.valueError ("Provider " ++ nm ++ " not found in registry."))) := by
  constructor
  · unfold get_provider
    cases hf : (providers.find? (fun e => e.1 == nm.toLower)).map (fun e => e.2) <;> simp
  · intro hnone
    simp [run_provider_wrapper_head, get_provider, hnone]

/-- Witness for C9: querying an empty registry for the name Amass raises the
`ValueError` rather than yielding an empty list. -/
theorem get_provider_never_none_witness :
    run_provider_wrapper_head [] "Amass" (fun _ => Except.ok []) =
      Except.error (PyErr.valueError "Provider Amass not found in registry.") :=
  (get_provider_never_none [] "Amass" (fun _ => Except.ok [])).2 rfl

/-! ## Quick scan — src/core/orchestrator.py, run_quick_scan

`run_quick_scan` broadcasts a starting status, evaluates
`repo.add_subdomain(domain, domain, "Root")`, then runs the Subfinder
adapter, the host-discovery phase with `trigger_next_phase=False`
(skipping Crawling), the vulnerability-scanning phase, and a final
complete status.  Evaluating the name `repo` consults the module
globals of orchestrator.py; the names bound at module level there are
listed verbatim in `orchestratorGlobals`. -/

/-- An observable step of the quick-scan path: a broadcast status event or
the start of a phase. -/
inductive ScanEvent
  | status (msg : String)
  | phase (nm : String)
deriving DecidableEq, Repr

/-- The names bound at module level in src/core/orchestrator.py: the imports
(sys, os, asyncio, Console plus the objects imported from core and modules),
the `console` object, every module-level `async def`, and the late import of
`get_all_crawled_urls`.  The module-level repository object was removed in
favour of per-task instances (comment at the top of the file), so no name
`repo` is bound. -/
def orchestratorGlobals : List String :=
  ["sys", "os", "asyncio", "Console", "console",
   "run_tasks_in_parallel", "run_katana", "run_gau", "run_nuclei",
   "registry", "SqlAlchemyRepository",
   "run_provider_wrapper", "run_subfinder_adapter", "run_assetfinder_adapter",
   "run_findomain_adapter", "run_httpx_adapter",
   "run_subdomain_enumeration_phase", "run_host_discovery_phase",
   "run_crawling_phase", "run_vuln_scanning_phase",
   "get_all_crawled_urls", "run_quick_scan"]

/-- `run_quick_scan(domain, config, broadcast_callback, scan_id)` at event
granularity: the starting status is broadcast, then `repo.add_subdomain`
evaluates the global name `repo`; if that lookup fails the coroutine raises
`NameError` and none of the phases run, otherwise the three quick-scan
phases (Subfinder only, host discovery without crawling, vulnerability
scanning) and the final complete status follow. -/
def run_quick_scan (globals : List String) (domain : String) :
    List ScanEvent × Option PyErr :=
  let ev0 : List ScanEvent := [ScanEvent.status ("Starting Quick Scan for " ++ domain)]
  if "repo" ∈ globals then
    (ev0 ++
      [ScanEvent.phase "subdomain_enum:Subfinder",
       ScanEvent.phase "host_discovery",
       ScanEvent.phase "vuln_scanning",
       ScanEvent.status "Quick Scan Complete"], none)
  else
    (ev0, some (PyErr.nameError "repo"))

/-- `run_quick_scan_background` (src/fastapi_app.py): registers the scan,
broadcasts a starting status, awaits `run_quick_scan`, and converts any
exception other than cancellation into a final failure status event. -/
def run_quick_scan_background (globals : List String) (domain : String) :
    List ScanEvent :=
  let r := run_quick_scan globals domain
  match r.2 with
  | none => r.1 ++ [ScanEvent.status ("Quick Scan complete for " ++ domain)]
  | some _ => r.1 ++ [ScanEvent.status "Scan failed: NameError on repo"]

/-- C6 (divergence): against the actual module globals of orchestrator.py the
quick-scan path raises `NameError` on the unbound name `repo` right after the
starting status: no phase — not even the single Subfinder provider — is
reached, the final status of the background wrapper is the failure status,
and no complete status is ever emitted. -/
theorem run_quick_scan_raises_name_error (domain : String) :
    (run_quick_scan orchestratorGlobals domain).2 = some (PyErr.nameError "repo") ∧
    (run_quick_scan orchestratorGlobals domain).1 =
      [ScanEvent.status ("Starting Quick Scan for " ++ domain)] ∧
    (∀ nm, ScanEvent.phase nm ∉ (run_quick_scan orchestratorGlobals domain).1) ∧
    run_quick_scan_background orchestratorGlobals domain =
      [ScanEvent.status ("Starting Quick Scan for " ++ domain),
       ScanEvent.status "Scan failed: NameError on repo"] := by
  have hg : "repo" ∉ orchestratorGlobals := by decide
  refine ⟨?_, ?_, ?_, ?_⟩ <;>
    simp [run_quick_scan, run_quick_scan_background, hg]

/-! ## Provider attribute lookup — src/core/providers/base.py and
src/core/providers/subfinder.py

`SubfinderProvider.stream_output` begins with
`flags = await self.get_config("tool:subfinder:flags", [...])` — before
its first `yield` and before `_run_command` launches the subprocess.
Python resolves `self.get_config` through the instance and its classes;
the attributes available on a `SubfinderProvider` instance are exactly the
methods of `SubfinderProvider` and `BaseProvider` plus the `name` field
set in `__init__`, listed verbatim below. -/

/-- Attributes reachable on a `BaseProvider` instance: its methods and the
`name` instance attribute. -/
def baseProviderAttrs : List String :=
  ["__init__", "run", "stream_output", "_run_command", "name"]

/-- Attributes reachable on a `SubfinderProvider` instance: its own method
table followed by the inherited `BaseProvider` attributes. -/
def subfinderProviderAttrs : List String :=
  ["__init__", "run", "stream_output"] ++ baseProviderAttrs

/-- Python attribute resolution: a missing attribute raises `AttributeError`. -/
def lookupAttr (attrs : List String) (nm : String) : Except PyErr String :=
  if nm ∈ attrs then Except.ok nm else Except.error (PyErr.attributeError nm)

/-- The prefix of `SubfinderProvider.stream_output` up to the subprocess
launch: resolve `self.get_config`; on success the command line would be
`subfinder -d <target>` followed by the configured flags for the key
`tool:subfinder:flags` (`cfgFlags`) or the hard-coded default
`-silent -all` when the key is absent. -/
def subfinder_stream_start (target : String) (cfgFlags : Option (List String)) :
    Except PyErr (List String) :=
  match lookupAttr subfinderProviderAttrs "get_config" with
  | Except.error e => Except.error e
  | Except.ok _ =>
    Except.ok (["subfinder", "-d", target] ++ cfgFlags.getD ["-silent", "-all"])

/-- C2 (divergence): the repository defines `get_config` nowhere — it is not
among the attributes of `SubfinderProvider` or `BaseProvider` — so
`stream_output` raises `AttributeError` at its first statement for every
target and configuration: no event of the stream is produced and the
subprocess command is never built, configured flags or not. -/
theorem subfinder_stream_attribute_error :
    "get_config" ∉ subfinderProviderAttrs ∧
    (∀ target cfgFlags,
      subfinder_stream_start target cfgFlags =
        Except.error (PyErr.attributeError "get_config")) ∧
    (∀ target cfgFlags cmd, subfinder_stream_start target cfgFlags ≠ Except.ok cmd) := by
  have hm : "get_config" ∉ subfinderProviderAttrs := by decide
  refine ⟨hm, ?_, ?_⟩
  · intro target cfgFlags
    simp [subfinder_stream_start, lookupAttr, hm]
  · intro target cfgFlags cmd
    simp [subfinder_stream_start, lookupAttr, hm]

/-! ## Provider streaming under cancellation —
src/core/providers/assetfinder.py and src/modules/subdomain_enum.py

`AssetfinderProvider.stream_output` (whose loop, unlike Subfinder and
HTTPX, is reachable because it consults no configuration) reads stdout
line by line; a line that is non-empty and contains the target yields a
`result` then a `log` event.  Its `except asyncio.CancelledError` handler
yields one `error` event and re-raises — it contains no call to
`process.terminate()`.  The legacy `run_tool_streaming` coroutine handles
the same cancellation by calling `process.terminate()` (its own
exceptions swallowed) before re-raising. -/

/-- Python `pat in s` substring test, on character lists. -/
def containsSub (pat : List Char) : List Char → Bool
  | [] => pat.isEmpty
  | c :: rest => pat.isPrefixOf (c :: rest) || containsSub pat rest

/-- An OS subprocess handle, recording whether `terminate()` was requested. -/
structure ProcHandle where
  terminateRequested : Bool
deriving DecidableEq, Repr

/-- An event yielded by a provider stream. -/
inductive StreamEvent
  | result (data : String)
  | log (data : String)
  | error (data : String)
deriving DecidableEq, Repr

/-- Events produced for one decoded stdout line of assetfinder: skipped when
empty, `result` then `log` when the line contains the target. -/
def afLineEvents (target : String) (decoded : String) : List StreamEvent :=
  if decoded == "" then []
  else if containsSub target.data decoded.data then
    [StreamEvent.result decoded, StreamEvent.log ("[Assetfinder] Found: " ++ decoded)]
  else []

/-- The `while True: line = await process.stdout.readline()` loop.  `cancelAt
= some k` injects `asyncio.CancelledError` at the k-th `readline` await
(counted from `idx`); the second component reports whether the loop was left
through the cancellation. -/
def afReadLoop (target : String) (lines : List String) (cancelAt : Option Nat)
    (idx : Nat) : List StreamEvent × Bool :=
  if cancelAt == some idx then ([], true)
  else
    match lines with
    | [] => ([], false)
    | l :: rest =>
      let r := afReadLoop target rest cancelAt (idx + 1)
      (afLineEvents target l ++ r.1, r.2)

/-- `AssetfinderProvider.stream_output`: starting log, subprocess launch via
`_run_command` (which does not register the handle anywhere), the read loop,
then either the `except asyncio.CancelledError` handler — one `error` event,
re-raise, and no `terminate()` on the owned process — or the completion log.
Returns the events, the final state of the owned process handle, and whether
`CancelledError` was re-propagated to the caller. -/
def assetfinder_stream_output (target : String) (lines : List String)
    (cancelAt : Option Nat) : List StreamEvent × ProcHandle × Bool :=
  let startEv := StreamEvent.log ("[*] Starting Assetfinder for " ++ target ++ "...")
  let proc : ProcHandle := ⟨false⟩
  let r := afReadLoop target lines cancelAt 0
  if r.2 then
    (startEv :: r.1 ++ [StreamEvent.error "Assetfinder cancelled."], proc, true)
  else
    (startEv :: r.1 ++ [StreamEvent.log "[*] Assetfinder Complete."], proc, false)

/-- The `except asyncio.CancelledError` handler of `run_tool_streaming`
(src/modules/subdomain_enum.py): `process.terminate()` — its own failure
swallowed by a bare except — then `raise`. -/
def run_tool_streaming_onCancel (p : ProcHandle) : ProcHandle × Bool :=
  ({ p with terminateRequested := true }, true)

theorem afReadLoop_cancelled (target : String) (k : Nat) :
    ∀ (lines : List String) (idx : Nat), idx ≤ k → k ≤ idx + lines.length →
      (afReadLoop target lines (some k) idx).2 = true := by
  intro lines
  induction lines with
  | nil =>
    intro idx hlo hhi
    have : k = idx := by
      simp only [List.length_nil, Nat.add_zero] at hhi
      omega
    subst this
    simp [afReadLoop]
  | cons l rest ih =>
    intro idx hlo hhi
    by_cases hk : k = idx
    · subst hk
      simp [afReadLoop]
    · have h1 : (some k == some idx) = false := by
        simp only [beq_eq_false_iff_ne, ne_eq, Option.some.injEq]
        exact hk
      rw [afReadLoop, h1]
      simp only [Bool.false_eq_true, if_false]
      have hhi2 : k ≤ idx + 1 + rest.length := by
        simp only [List.length_cons] at hhi
        omega
      exact ih (idx + 1) (by omega) hhi2

/-- C7 (divergence): when the enclosing task is cancelled while
`AssetfinderProvider.stream_output` awaits a `readline` of its running
subprocess, the cancellation is re-propagated to the caller — never
swallowed — but the provider leaves its owned subprocess without a
terminate request; the legacy `run_tool_streaming` handler, by contrast,
requests termination before re-raising, which is the behaviour the claim
asserts for the providers. -/
theorem provider_cancel_no_terminate (target : String) (lines : List String) (k : Nat)
    (hk : k ≤ lines.length) :
    (assetfinder_stream_output target lines (some k)).2.2 = true ∧
    (assetfinder_stream_output target lines (some k)).2.1.terminateRequested = false ∧
    (∀ p : ProcHandle, (run_tool_streaming_onCancel p).1.terminateRequested = true ∧
      (run_tool_streaming_onCancel p).2 = true) := by
  have hc : (afReadLoop target lines (some k) 0).2 = true :=
    afReadLoop_cancelled target k lines 0 (Nat.zero_le k) (by simpa using hk)
  refine ⟨?_, ?_, fun p => ⟨rfl, rfl⟩⟩ <;>
    simp [assetfinder_stream_output, hc]

/-- Witness for C7: cancellation delivered at the second readline of a
two-line stream is re-raised while the subprocess stays unterminated. -/
theorem provider_cancel_no_terminate_witness :
    (assetfinder_stream_output "example.com" ["a.example.com", "b.example.com"] (some 1)).2.2
      = true ∧
    (assetfinder_stream_output "example.com" ["a.example.com", "b.example.com"]
      (some 1)).2.1.terminateRequested = false :=
  ⟨(provider_cancel_no_terminate "example.com" ["a.example.com", "b.example.com"] 1
      (by decide)).1,
   (provider_cancel_no_terminate "example.com" ["a.example.com", "b.example.com"] 1
      (by decide)).2.1⟩

/-! ## Repository dedup insert — src/core/repositories/sqlalchemy_repo.py,
add_subdomain, against the unique hostname column of src/core/models.py

Each `add_subdomain(d, s, t)` call runs in its own session: it first
selects by the natural key `subdomain=s` (the existence check), returns
False when a row exists, and otherwise inserts and commits; the commit of
a racing call that inserted `s` after the check makes the insert raise
`IntegrityError` on the unique column, which the call catches, rolls back
and converts to False.  A group of concurrent calls on the same key `s`
is modelled as an interleaving of per-call `check` and `insertAttempt`
(commit) events over the shared committed state; each call observes the
committed state at its own two events. -/

/-- Database-level error of a violated unique constraint. -/
inductive DbErr
  | integrityError
deriving DecidableEq, Repr

/-- The raw insert-and-commit of a row with the contested key: the unique
constraint on `subdomain` raises `IntegrityError` iff the key is already
committed. -/
def insertRow (present : Bool) : Except DbErr Unit :=
  if present then Except.error DbErr.integrityError else Except.ok ()

/-- Shared state of an interleaved group of `add_subdomain` calls on one key:
whether a row with the key is committed, per call the existence-check result
it observed (`none` until its check runs), and per call its return value
(`none` while it still runs). -/
structure AddRun where
  present : Bool
  checked : List (Option Bool)
  res : List (Option Bool)
deriving DecidableEq, Repr

/-- An atomic event of the interleaving: call `i` runs its existence check,
or call `i` reaches its insert-and-commit point. -/
inductive AddEv
  | check (i : Nat)
  | insertAttempt (i : Nat)
deriving DecidableEq, Repr

/-- One event of one call, exactly following the body of `add_subdomain`:
the check returns False immediately when a row exists; the insert attempt
of a call whose check saw no row either commits the row (True) or catches
the `IntegrityError` raised because a concurrent insert committed first,
rolls back, and returns False — the violation never escapes the call.
Events of an already-finished call, duplicated events and attempts before
the own check do not occur in real interleavings and leave the state
unchanged. -/
def addStep (s : AddRun) : AddEv → AddRun
  | AddEv.check i =>
    match s.checked.getD i none with
    | some _ => s
    | none =>
      if s.present then
        { s with checked := s.checked.set i (some true), res := s.res.set i (some false) }
      else
        { s with checked := s.checked.set i (some false) }
  | AddEv.insertAttempt i =>
    match s.checked.getD i none, s.res.getD i none with
    | none, _ => s
    | some _, some _ => s
    | some _, none =>
      match insertRow s.present with
      | Except.error DbErr.integrityError =>
        { s with res := s.res.set i (some false) }
      | Except.ok _ =>
        { s with present := true, res := s.res.set i (some true) }

/-- Run an interleaving. -/
def addRun (events : List AddEv) (s : AddRun) : AddRun :=
  events.foldl addStep s

/-- Initial state of `n` concurrent calls: none has checked or returned, and
the key is committed iff a `Subdomain` row with it existed before the calls. -/
def addInit (n : Nat) (present : Bool) : AddRun :=
  ⟨present, List.replicate n none, List.replicate n none⟩

/-- A schedule is complete for `n` calls when every call runs its check and
later reaches its insert-and-commit point. -/
def schedComplete (n : Nat) (events : List AddEv) : Prop :=
  ∀ i, i < n → ∃ l1 l2, events = l1 ++ AddEv.check i :: l2 ∧ AddEv.insertAttempt i ∈ l2

theorem set_oob {α : Type} (v : α) :
    ∀ (l : List α) (i : Nat), l.length ≤ i → l.set i v = l := by
  intro l
  induction l with
  | nil => intro i _; rfl
  | cons a t ih =>
    intro i hi
    cases i with
    | zero => simp at hi
    | succ j =>
      simp only [List.set]
      rw [ih j (by simpa using hi)]

theorem getD_set_same {α : Type} (v d : α) :
    ∀ (l : List α) (i : Nat), i < l.length → (l.set i v).getD i d = v := by
  intro l
  induction l with
  | nil => intro i hi; simp at hi
  | cons a t ih =>
    intro i hi
    cases i with
    | zero => rfl
    | succ j =>
      simp only [List.set, List.getD_cons_succ]
      exact ih j (by simpa using hi)

theorem getD_set_other {α : Type} (v d : α) :
    ∀ (l : List α) (i j : Nat), i ≠ j → (l.set i v).getD j d = l.getD j d := by
  intro l
  induction l with
  | nil => intro i j _; rfl
  | cons a t ih =>
    intro i j hij
    cases i with
    | zero =>
      cases j with
      | zero => exact absurd rfl hij
      | succ jj => rfl
    | succ ii =>
      cases j with
      | zero => rfl
      | succ jj =>
        simp only [List.set, List.getD_cons_succ]
        exact ih ii jj (by omega)

theorem getD_oob {α : Type} (d : α) :
    ∀ (l : List α) (i : Nat), l.length ≤ i → l.getD i d = d := by
  intro l
  induction l with
  | nil => intro i _; rfl
  | cons a t ih =>
    intro i hi
    cases i with
    | zero => simp at hi
    | succ j =>
      simp only [List.getD_cons_succ]
      exact ih j (by simpa using hi)

theorem getD_replicate_none :
    ∀ (n i : Nat), (List.replicate n (none : Option Bool)).getD i none = none := by
  intro n
  induction n with
  | zero => intro i; rfl
  | succ m ih =>
    intro i
    cases i with
    | zero => rfl
    | succ j =>
      simp only [List.replicate, List.getD_cons_succ]
      exact ih j

theorem count_replicate_none :
    ∀ n : Nat, (List.replicate n (none : Option Bool)).count (some true) = 0 := by
  intro n
  induction n with
  | zero => rfl
  | succ m ih => simpa [List.replicate, List.count_cons] using ih

theorem count_set_some_false :
    ∀ (l : List (Option Bool)) (i : Nat), l.getD i none = none →
      (l.set i (some false)).count (some true) = l.count (some true) := by
  intro l
  induction l with
  | nil => intro i _; rfl
  | cons a t ih =>
    intro i hi
    cases i with
    | zero =>
      have ha : a = none := hi
      subst ha
      simp [List.count_cons]
    | succ j =>
      simp only [List.set, List.count_cons]
      rw [ih j (by simpa using hi)]

theorem count_set_some_true :
    ∀ (l : List (Option Bool)) (i : Nat), i < l.length → l.getD i none = none →
      (l.set i (some true)).count (some true) = l.count (some true) + 1 := by
  intro l
  induction l with
  | nil => intro i hi _; simp at hi
  | cons a t ih =>
    intro i hlen hi
    cases i with
    | zero =>
      have ha : a = none := hi
      subst ha
      simp [List.count_cons]
    | succ j =>
      simp only [List.set, List.count_cons]
      rw [ih j (by simpa using hlen) (by simpa using hi)]
      cases a <;> simp [List.count_cons]
      omega

/-- Structural invariant: the per-call tables have length `n`, and a call
that has not run its check has not returned. -/
def InvCore (n : Nat) (s : AddRun) : Prop :=
  s.checked.length = n ∧ s.res.length = n ∧
  (∀ i, s.checked.getD i none = none → s.res.getD i none = none)

/-- Invariant of runs starting without a committed row: until some insert
commits no call has returned, and the number of calls that returned True is
1 once the key is committed and 0 before. -/
def InvFresh (n : Nat) (s : AddRun) : Prop :=
  InvCore n s ∧
  (s.present = false → ∀ i, s.res.getD i none = none) ∧
  s.res.count (some true) = (if s.present then 1 else 0)

/-- Invariant of runs starting with the row already committed: the key stays
committed and no call returns True. -/
def InvExisting (n : Nat) (s : AddRun) : Prop :=
  InvCore n s ∧ s.present = true ∧ s.res.count (some true) = 0

theorem lt_of_getD_some {α : Type} (d : α) (l : List α) (i : Nat) (b : α)
    (h : l.getD i d = b) (hb : b ≠ d) : i < l.length := by
  by_contra hge
  rw [getD_oob d l i (by omega)] at h
  exact hb h.symm

theorem getD_mem_of_lt {α : Type} (d : α) :
    ∀ (l : List α) (i : Nat), i < l.length → l.getD i d ∈ l := by
  intro l
  induction l with
  | nil => intro i hi; simp at hi
  | cons a t ih =>
    intro i hi
    cases i with
    | zero => simp [List.getD_cons_zero]
    | succ j =>
      simp only [List.getD_cons_succ]
      exact List.mem_cons_of_mem a (ih j (by simpa using hi))

theorem addStep_check_seen (s : AddRun) (i : Nat) (b : Bool)
    (hch : s.checked.getD i none = some b) :
    addStep s (AddEv.check i) = s := by
  simp only [addStep]
  rw [hch]

theorem addStep_check_present (s : AddRun) (i : Nat)
    (hch : s.checked.getD i none = none) (hp : s.present = true) :
    addStep s (AddEv.check i) =
      { s with checked := s.checked.set i (some true), res := s.res.set i (some false) } := by
  simp only [addStep]
  rw [hch, hp]
  simp

theorem addStep_check_absent (s : AddRun) (i : Nat)
    (hch : s.checked.getD i none = none) (hp : s.present = false) :
    addStep s (AddEv.check i) =
      { s with checked := s.checked.set i (some false) } := by
  simp only [addStep]
  rw [hch, hp]
  simp

theorem addStep_attempt_early (s : AddRun) (i : Nat)
    (hch : s.checked.getD i none = none) :
    addStep s (AddEv.insertAttempt i) = s := by
  simp only [addStep]
  rw [hch]

theorem addStep_attempt_done (s : AddRun) (i : Nat) (b v : Bool)
    (hch : s.checked.getD i none = some b) (hrs : s.res.getD i none = some v) :
    addStep s (AddEv.insertAttempt i) = s := by
  simp only [addStep]
  rw [hch, hrs]

theorem addStep_attempt_conflict (s : AddRun) (i : Nat) (b : Bool)
    (hch : s.checked.getD i none = some b) (hrs : s.res.getD i none = none)
    (hp : s.present = true) :
    addStep s (AddEv.insertAttempt i) =
      { s with res := s.res.set i (some false) } := by
  simp only [addStep]
  rw [hch, hrs]
  simp [insertRow, hp]

theorem addStep_attempt_commit (s : AddRun) (i : Nat) (b : Bool)
    (hch : s.checked.getD i none = some b) (hrs : s.res.getD i none = none)
    (hp : s.present = false) :
    addStep s (AddEv.insertAttempt i) =
      { s with present := true, res := s.res.set i (some true) } := by
  simp only [addStep]
  rw [hch, hrs]
  simp [insertRow, hp]

theorem invCore_step (n : Nat) (s : AddRun) (e : AddEv) (h : InvCore n s) :
    InvCore n (addStep s e) := by
  obtain ⟨hcl, hrl, himp⟩ := h
  cases e with
  | check i =>
    cases hch : s.checked.getD i none with
    | some b => rw [addStep_check_seen s i b hch]; exact ⟨hcl, hrl, himp⟩
    | none =>
      cases hp : s.present with
      | true =>
        rw [addStep_check_present s i hch hp]
        refine ⟨by simpa using hcl, by simpa using hrl, ?_⟩
        intro j hj
        simp only at hj ⊢
        by_cases hji : i = j
        · subst hji
          by_cases hlt : i < s.checked.length
          · rw [getD_set_same _ _ _ _ hlt] at hj
            simp at hj
          · rw [set_oob _ _ _ (by rw [hcl, ← hrl] at hlt; omega)]
            rw [set_oob _ _ _ (by omega)] at hj
            exact himp i hj
        · rw [getD_set_other _ _ _ _ _ hji] at hj
          rw [getD_set_other _ _ _ _ _ hji]
          exact himp j hj
      | false =>
        rw [addStep_check_absent s i hch hp]
        refine ⟨by simpa using hcl, hrl, ?_⟩
        intro j hj
        simp only at hj ⊢
        by_cases hji : i = j
        · subst hji
          by_cases hlt : i < s.checked.length
          · rw [getD_set_same _ _ _ _ hlt] at hj
            simp at hj
          · rw [set_oob _ _ _ (by omega)] at hj
            exact himp i hj
        · rw [getD_set_other _ _ _ _ _ hji] at hj
          exact himp j hj
  | insertAttempt i =>
    cases hch : s.checked.getD i none with
    | none => rw [addStep_attempt_early s i hch]; exact ⟨hcl, hrl, himp⟩
    | some b =>
      cases hrs : s.res.getD i none with
      | some v => rw [addStep_attempt_done s i b v hch hrs]; exact ⟨hcl, hrl, himp⟩
      | none =>
        cases hp : s.present with
        | true =>
          rw [addStep_attempt_conflict s i b hch hrs hp]
          refine ⟨hcl, by simpa using hrl, ?_⟩
          intro j hj
          simp only at hj ⊢
          by_cases hji : i = j
          · subst hji
            rw [hch] at hj
            simp at hj
          · rw [getD_set_other _ _ _ _ _ hji]
            exact himp j hj
        | false =>
          rw [addStep_attempt_commit s i b hch hrs hp]
          refine ⟨hcl, by simpa using hrl, ?_⟩
          intro j hj
          simp only at hj ⊢
          by_cases hji : i = j
          · subst hji
            rw [hch] at hj
            simp at hj
          · rw [getD_set_other _ _ _ _ _ hji]
            exact himp j hj

theorem invFresh_step (n : Nat) (s : AddRun) (e : AddEv) (h : InvFresh n s) :
    InvFresh n (addStep s e) := by
  obtain ⟨hcore, hnone, hcount⟩ := h
  obtain ⟨hcl, hrl, himp⟩ := hcore
  refine ⟨invCore_step n s e ⟨hcl, hrl, himp⟩, ?_, ?_⟩ <;>
  cases e with
  | check i =>
    cases hch : s.checked.getD i none with
    | some b =>
      rw [addStep_check_seen s i b hch]
      first
      | exact hnone
      | exact hcount
    | none =>
      cases hp : s.present with
      | true =>
        rw [addStep_check_present s i hch hp]
        first
        | (intro hfa; simp [hp] at hfa)
        | (simp only
           rw [count_set_some_false s.res i (himp i hch), hcount, hp])
      | false =>
        rw [addStep_check_absent s i hch hp]
        first
        | exact fun _ => hnone hp
        | exact hcount
  | insertAttempt i =>
    cases hch : s.checked.getD i none with
    | none =>
      rw [addStep_attempt_early s i hch]
      first
      | exact hnone
      | exact hcount
    | some b =>
      cases hrs : s.res.getD i none with
      | some v =>
        rw [addStep_attempt_done s i b v hch hrs]
        first
        | exact hnone
        | exact hcount
      | none =>
        cases hp : s.present with
        | true =>
          rw [addStep_attempt_conflict s i b hch hrs hp]
          first
          | (intro hfa; simp [hp] at hfa)
          | (simp only
             rw [count_set_some_false s.res i hrs, hcount, hp])
        | false =>
          rw [addStep_attempt_commit s i b hch hrs hp]
          first
          | (intro hfa; simp [hp] at hfa)
          | (simp only
             have hilt : i < s.res.length := by
               have := lt_of_getD_some none s.checked i (some b) hch (by simp)
               omega
             rw [count_set_some_true s.res i hilt hrs, hcount, hp]
             simp)

theorem invExisting_step (n : Nat) (s : AddRun) (e : AddEv) (h : InvExisting n s) :
    InvExisting n (addStep s e) := by
  obtain ⟨hcore, hp, hcount⟩ := h
  obtain ⟨hcl, hrl, himp⟩ := hcore
  refine ⟨invCore_step n s e ⟨hcl, hrl, himp⟩, ?_, ?_⟩ <;>
  cases e with
  | check i =>
    cases hch : s.checked.getD i none with
    | some b =>
      rw [addStep_check_seen s i b hch]
      first
      | exact hp
      | exact hcount
    | none =>
      rw [addStep_check_present s i hch hp]
      first
      | exact hp
      | (simp only
         rw [count_set_some_false s.res i (himp i hch), hcount])
  | insertAttempt i =>
    cases hch : s.checked.getD i none with
    | none =>
      rw [addStep_attempt_early s i hch]
      first
      | exact hp
      | exact hcount
    | some b =>
      cases hrs : s.res.getD i none with
      | some v =>
        rw [addStep_attempt_done s i b v hch hrs]
        first
        | exact hp
        | exact hcount
      | none =>
        rw [addStep_attempt_conflict s i b hch hrs hp]
        first
        | exact hp
        | (simp only
           rw [count_set_some_false s.res i hrs, hcount])

theorem checked_stable_step (s : AddRun) (e : AddEv) (i : Nat) (b : Bool)
    (h : s.checked.getD i none = some b) :
    (addStep s e).checked.getD i none = some b := by
  cases e with
  | check j =>
    cases hch : s.checked.getD j none with
    | some c => rw [addStep_check_seen s j c hch]; exact h
    | none =>
      have hji : j ≠ i := by
        intro hx
        subst hx
        rw [h] at hch
        simp at hch
      cases hp : s.present with
      | true =>
        rw [addStep_check_present s j hch hp]
        simp only
        rw [getD_set_other _ _ _ _ _ hji]
        exact h
      | false =>
        rw [addStep_check_absent s j hch hp]
        simp only
        rw [getD_set_other _ _ _ _ _ hji]
        exact h
  | insertAttempt j =>
    cases hch : s.checked.getD j none with
    | none => rw [addStep_attempt_early s j hch]; exact h
    | some c =>
      cases hrs : s.res.getD j none with
      | some v => rw [addStep_attempt_done s j c v hch hrs]; exact h
      | none =>
        cases hp : s.present with
        | true => rw [addStep_attempt_conflict s j c hch hrs hp]; exact h
        | false => rw [addStep_attempt_commit s j c hch hrs hp]; exact h

theorem res_stable_step (s : AddRun) (e : AddEv) (i : Nat) (b : Bool)
    (himp : ∀ j, s.checked.getD j none = none → s.res.getD j none = none)
    (h : s.res.getD i none = some b) :
    (addStep s e).res.getD i none = some b := by
  cases e with
  | check j =>
    cases hch : s.checked.getD j none with
    | some c => rw [addStep_check_seen s j c hch]; exact h
    | none =>
      have hji : j ≠ i := by
        intro hx
        subst hx
        rw [himp j hch] at h
        simp at h
      cases hp : s.present with
      | true =>
        rw [addStep_check_present s j hch hp]
        simp only
        rw [getD_set_other _ _ _ _ _ hji]
        exact h
      | false =>
        rw [addStep_check_absent s j hch hp]
        exact h
  | insertAttempt j =>
    cases hch : s.checked.getD j none with
    | none => rw [addStep_attempt_early s j hch]; exact h
    | some c =>
      cases hrs : s.res.getD j none with
      | some v => rw [addStep_attempt_done s j c v hch hrs]; exact h
      | none =>
        have hji : j ≠ i := by
          intro hx
          subst hx
          rw [h] at hrs
          simp at hrs
        cases hp : s.present with
        | true =>
          rw [addStep_attempt_conflict s j c hch hrs hp]
          simp only
          rw [getD_set_other _ _ _ _ _ hji]
          exact h
        | false =>
          rw [addStep_attempt_commit s j c hch hrs hp]
          simp only
          rw [getD_set_other _ _ _ _ _ hji]
          exact h

theorem checked_after_check (n : Nat) (s : AddRun) (i : Nat)
    (hcl : s.checked.length = n) (hi : i < n) :
    ∃ b, (addStep s (AddEv.check i)).checked.getD i none = some b := by
  cases hch : s.checked.getD i none with
  | some b => rw [addStep_check_seen s i b hch]; exact ⟨b, hch⟩
  | none =>
    cases hp : s.present with
    | true =>
      rw [addStep_check_present s i hch hp]
      refine ⟨true, ?_⟩
      simp only
      rw [getD_set_same _ _ _ _ (by omega)]
    | false =>
      rw [addStep_check_absent s i hch hp]
      refine ⟨false, ?_⟩
      simp only
      rw [getD_set_same _ _ _ _ (by omega)]

theorem res_after_attempt (n : Nat) (s : AddRun) (i : Nat) (b : Bool)
    (hcl : s.checked.length = n) (hrl : s.res.length = n)
    (hch : s.checked.getD i none = some b) :
    ∃ v, (addStep s (AddEv.insertAttempt i)).res.getD i none = some v := by
  have hilt : i < s.res.length := by
    have := lt_of_getD_some none s.checked i (some b) hch (by simp)
    omega
  cases hrs : s.res.getD i none with
  | some v => rw [addStep_attempt_done s i b v hch hrs]; exact ⟨v, hrs⟩
  | none =>
    cases hp : s.present with
    | true =>
      rw [addStep_attempt_conflict s i b hch hrs hp]
      refine ⟨false, ?_⟩
      simp only
      rw [getD_set_same _ _ _ _ hilt]
    | false =>
      rw [addStep_attempt_commit s i b hch hrs hp]
      refine ⟨true, ?_⟩
      simp only
      rw [getD_set_same _ _ _ _ hilt]

theorem invCore_run (n : Nat) :
    ∀ (l : List AddEv) (s : AddRun), InvCore n s → InvCore n (addRun l s) := by
  intro l
  induction l with
  | nil => intro s h; exact h
  | cons e t ih =>
    intro s h
    exact ih (addStep s e) (invCore_step n s e h)

theorem invFresh_run (n : Nat) :
    ∀ (l : List AddEv) (s : AddRun), InvFresh n s → InvFresh n (addRun l s) := by
  intro l
  induction l with
  | nil => intro s h; exact h
  | cons e t ih =>
    intro s h
    exact ih (addStep s e) (invFresh_step n s e h)

theorem invExisting_run (n : Nat) :
    ∀ (l : List AddEv) (s : AddRun), InvExisting n s → InvExisting n (addRun l s) := by
  intro l
  induction l with
  | nil => intro s h; exact h
  | cons e t ih =>
    intro s h
    exact ih (addStep s e) (invExisting_step n s e h)

theorem checked_stable_run (i : Nat) (b : Bool) :
    ∀ (l : List AddEv) (s : AddRun), s.checked.getD i none = some b →
      (addRun l s).checked.getD i none = some b := by
  intro l
  induction l with
  | nil => intro s h; exact h
  | cons e t ih =>
    intro s h
    exact ih (addStep s e) (checked_stable_step s e i b h)

theorem res_stable_run (n : Nat) (i : Nat) (b : Bool) :
    ∀ (l : List AddEv) (s : AddRun), InvCore n s → s.res.getD i none = some b →
      (addRun l s).res.getD i none = some b := by
  intro l
  induction l with
  | nil => intro s _ h; exact h
  | cons e t ih =>
    intro s hcore h
    exact ih (addStep s e) (invCore_step n s e hcore)
      (res_stable_step s e i b hcore.2.2 h)

theorem addRun_append (a b : List AddEv) (s : AddRun) :
    addRun (a ++ b) s = addRun b (addRun a s) :=
  List.foldl_append addStep s a b

theorem res_some_of_complete (n : Nat) (i : Nat) (hi : i < n)
    (s : AddRun) (hcore : InvCore n s)
    (l1 l2 : List AddEv) (hmem : AddEv.insertAttempt i ∈ l2) :
    ∃ v, (addRun (l1 ++ AddEv.check i :: l2) s).res.getD i none = some v := by
  obtain ⟨l2a, l2b, hdec⟩ := List.append_of_mem hmem
  subst hdec
  have h1 : addRun (l1 ++ AddEv.check i :: (l2a ++ AddEv.insertAttempt i :: l2b)) s =
      addRun l2b (addStep
        (addRun l2a (addStep (addRun l1 s) (AddEv.check i)))
        (AddEv.insertAttempt i)) := by
    rw [addRun_append]
    show addRun (AddEv.check i :: (l2a ++ AddEv.insertAttempt i :: l2b)) (addRun l1 s) = _
    rw [show addRun (AddEv.check i :: (l2a ++ AddEv.insertAttempt i :: l2b)) (addRun l1 s) =
        addRun (l2a ++ AddEv.insertAttempt i :: l2b)
          (addStep (addRun l1 s) (AddEv.check i)) from rfl]
    rw [addRun_append]
    rfl
  rw [h1]
  have hcore1 : InvCore n (addRun l1 s) := invCore_run n l1 s hcore
  obtain ⟨b2, hb2⟩ := checked_after_check n (addRun l1 s) i hcore1.1 hi
  have hcore2 : InvCore n (addStep (addRun l1 s) (AddEv.check i)) :=
    invCore_step n _ _ hcore1
  have hb3 : (addRun l2a (addStep (addRun l1 s) (AddEv.check i))).checked.getD i none
      = some b2 := checked_stable_run i b2 l2a _ hb2
  have hcore3 : InvCore n (addRun l2a (addStep (addRun l1 s) (AddEv.check i))) :=
    invCore_run n l2a _ hcore2
  obtain ⟨v4, hv4⟩ := res_after_attempt n _ i b2 hcore3.1 hcore3.2.1 hb3
  have hcore4 : InvCore n (addStep
      (addRun l2a (addStep (addRun l1 s) (AddEv.check i))) (AddEv.insertAttempt i)) :=
    invCore_step n _ _ hcore3
  exact ⟨v4, res_stable_run n i v4 l2b _ hcore4 hv4⟩

theorem invCore_init (n : Nat) (p : Bool) : InvCore n (addInit n p) := by
  refine ⟨by simp [addInit], by simp [addInit], ?_⟩
  intro i _
  exact getD_replicate_none n i

/-- C1: run any complete interleaving of `n ≥ 1` concurrent
`add_subdomain(d, s, t)` calls on the same key `s`.  Starting from a state
without a row for `s`, exactly one call returns True and every other call
returns False — whether its check saw the row or its insert hit the caught
`IntegrityError` of the racing winner — and starting from a state where a
row for `s` already exists, every call returns False; in both cases every
call returns a Boolean, so the uniqueness violation never propagates. -/
theorem add_subdomain_exactly_one_true (n : Nat) (events : List AddEv)
    (hn : 1 ≤ n) (hsched : schedComplete n events) :
    ((addRun events (addInit n false)).res.count (some true) = 1 ∧
     (∀ i, i < n → (addRun events (addInit n false)).res.getD i none = some true ∨
        (addRun events (addInit n false)).res.getD i none = some false)) ∧
    (∀ eventsE, schedComplete n eventsE → ∀ i, i < n →
      (addRun eventsE (addInit n true)).res.getD i none = some false) := by
  have hfresh0 : InvFresh n (addInit n false) := by
    refine ⟨invCore_init n false, ?_, ?_⟩
    · intro _ i
      exact getD_replicate_none n i
    · simp [addInit, count_replicate_none n]
  have hfreshF : InvFresh n (addRun events (addInit n false)) :=
    invFresh_run n events _ hfresh0
  have hdone : ∀ i, i < n →
      ∃ v, (addRun events (addInit n false)).res.getD i none = some v := by
    intro i hi
    obtain ⟨l1, l2, hev, hmem⟩ := hsched i hi
    rw [hev]
    exact res_some_of_complete n i hi _ (invCore_init n false) l1 l2 hmem
  have hpres : (addRun events (addInit n false)).present = true := by
    cases hp : (addRun events (addInit n false)).present with
    | true => rfl
    | false =>
      obtain ⟨v, hv⟩ := hdone 0 (by omega)
      rw [hfreshF.2.1 hp 0] at hv
      simp at hv
  constructor
  · constructor
    · rw [hfreshF.2.2, hpres]
      rfl
    · intro i hi
      obtain ⟨v, hv⟩ := hdone i hi
      cases v with
      | true => exact Or.inl hv
      | false => exact Or.inr hv
  · intro eventsE hschedE i hi
    have hex0 : InvExisting n (addInit n true) := by
      refine ⟨invCore_init n true, rfl, ?_⟩
      simp [addInit, count_replicate_none n]
    have hexF : InvExisting n (addRun eventsE (addInit n true)) :=
      invExisting_run n eventsE _ hex0
    obtain ⟨l1, l2, hev, hmem⟩ := hschedE i hi
    have hdoneE : ∃ v, (addRun eventsE (addInit n true)).res.getD i none = some v := by
      rw [hev]
      exact res_some_of_complete n i hi _ (invCore_init n true) l1 l2 hmem
    obtain ⟨v, hv⟩ := hdoneE
    cases v with
    | false => exact hv
    | true =>
      have hmemT : (some true) ∈ (addRun eventsE (addInit n true)).res := by
        have hlt : i < (addRun eventsE (addInit n true)).res.length := by
          have := hexF.1.2.1
          omega
        have := getD_mem_of_lt (none : Option Bool) _ i hlt
        rw [hv] at this
        exact this
      have : (addRun eventsE (addInit n true)).res.count (some true) ≠ 0 := by
        intro hzero
        rw [List.count_eq_zero] at hzero
        exact hzero hmemT
      exact absurd hexF.2.2 this

/-- Witness for C1: two racing calls that both pass the existence check —
both checks run before either insert commits — yield exactly one True. -/
theorem add_subdomain_exactly_one_true_witness :
    (addRun [AddEv.check 0, AddEv.check 1, AddEv.insertAttempt 0, AddEv.insertAttempt 1]
      (addInit 2 false)).res.count (some true) = 1 :=
  (add_subdomain_exactly_one_true 2
    [AddEv.check 0, AddEv.check 1, AddEv.insertAttempt 0, AddEv.insertAttempt 1]
    (by omega)
    (by
      intro i hi
      match i, hi with
      | 0, _ =>
        exact ⟨[], [AddEv.check 1, AddEv.insertAttempt 0, AddEv.insertAttempt 1],
          rfl, by decide⟩
      | 1, _ =>
        exact ⟨[AddEv.check 0], [AddEv.insertAttempt 0, AddEv.insertAttempt 1],
          rfl, by decide⟩)).1.1

/-! ## Hostname normalization — src/core/repositories/sqlalchemy_repo.py,
update_subdomain_alive

The input is normalized with
`subdomain.replace("https://", "").replace("http://", "").split("/")[0]`
before matching: every occurrence of the two scheme strings is deleted
(Python `str.replace` replaces all non-overlapping occurrences left to
right) and the prefix up to the first "/" — element 0 of the split — is
kept.  The select by `subdomain=hostname` takes the first matching row,
sets `is_alive` and commits, returning True; with no matching row the
session state is unchanged and False is returned.  Strings are modelled
as character lists. -/

/-- Python `s.replace(pat, rep)`: replace non-overlapping occurrences left
to right.  The source only applies it to the nonempty patterns below; an
empty pattern is returned unchanged here. -/
def replaceAll (pat rep : List Char) : List Char → List Char
  | [] => []
  | c :: rest =>
    match pat with
    | [] => c :: rest
    | p :: ps =>
      if (p :: ps).isPrefixOf (c :: rest) then
        rep ++ replaceAll (p :: ps) rep (rest.drop ps.length)
      else
        c :: replaceAll (p :: ps) rep rest
termination_by s => s.length
decreasing_by
  · simp only [List.length_drop, List.length_cons]
    omega
  · simp only [List.length_cons]
    omega

/-- The characters of the literal string https with scheme separator. -/
def httpsPat : List Char := ['h', 't', 't', 'p', 's', ':', '/', '/']

/-- The characters of the literal string http with scheme separator. -/
def httpPat : List Char := ['h', 't', 't', 'p', ':', '/', '/']

/-- The normalization applied by `update_subdomain_alive`: strip the https
then the http scheme strings, then keep `split("/")[0]` — the prefix before
the first slash. -/
def hostnameOf (s : List Char) : List Char :=
  (replaceAll httpPat [] (replaceAll httpsPat [] s)).takeWhile (fun c => !(c == '/'))

/-- A row of the `subdomains` table as touched by `update_subdomain_alive`. -/
structure SubRow where
  target_domain : List Char
  subdomain : List Char
  source_tool : List Char
  is_alive : Bool
deriving DecidableEq, Repr

/-- `select(Subdomain).filter_by(subdomain=hostname)` followed by setting
`is_alive` on the first matching row: `none` when no row matches. -/
def setAliveFirst (hostname : List Char) (alive : Bool) : List SubRow → Option (List SubRow)
  | [] => none
  | r :: rs =>
    if r.subdomain == hostname then some ({ r with is_alive := alive } :: rs)
    else Option.map (fun t => r :: t) (setAliveFirst hostname alive rs)

/-- `update_subdomain_alive(subdomain, is_alive)`: normalize the input to a
hostname, update the first row with that natural key and return True, or
leave the table unchanged and return False. -/
def update_subdomain_alive (rows : List SubRow) (input : List Char) (alive : Bool) :
    List SubRow × Bool :=
  match setAliveFirst (hostnameOf input) alive rows with
  | some rows2 => (rows2, true)
  | none => (rows, false)

theorem containsSub_of_append (pat h p : List Char)
    (hc : containsSub pat h = true) : containsSub pat (h ++ p) = true := by
  induction h with
  | nil =>
    simp only [containsSub, List.isEmpty_iff] at hc
    subst hc
    cases p with
    | nil => rfl
    | cons c rest => simp [containsSub]
  | cons c rest ih =>
    simp only [containsSub, List.cons_append, Bool.or_eq_true] at hc ⊢
    cases hc with
    | inl hpre =>
      left
      rw [List.isPrefixOf_iff_prefix] at hpre ⊢
      exact hpre.trans (List.prefix_append (c :: rest) p)
    | inr hrest => exact Or.inr (ih hrest)

theorem containsSub_append_false (pat h p : List Char)
    (hc : containsSub pat (h ++ p) = false) : containsSub pat h = false := by
  cases hh : containsSub pat h with
  | false => rfl
  | true => rw [containsSub_of_append pat h p hh] at hc; exact hc

theorem replaceAll_of_not_contains (pat rep : List Char) :
    ∀ s : List Char, containsSub pat s = false → replaceAll pat rep s = s := by
  intro s
  induction s with
  | nil => intro _; rw [replaceAll]
  | cons c rest ih =>
    intro hc
    simp only [containsSub, Bool.or_eq_false_iff] at hc
    cases pat with
    | nil => rw [replaceAll]
    | cons p ps =>
      rw [replaceAll]
      rw [if_neg (by rw [hc.1]; simp)]
      rw [ih hc.2]

theorem replaceAll_strip_head (p : Char) (ps rest : List Char) :
    replaceAll (p :: ps) [] ((p :: ps) ++ rest) = replaceAll (p :: ps) [] rest := by
  have hsplit : (p :: ps) ++ rest = p :: (ps ++ rest) := rfl
  rw [hsplit, replaceAll]
  rw [if_pos ?hpre]
  case hpre =>
    rw [List.isPrefixOf_iff_prefix]
    rw [← hsplit]
    exact List.prefix_append _ _
  rw [List.drop_left ps rest]
  rfl

theorem hostnameOf_id (h : List Char)
    (hcs : containsSub httpsPat h = false)
    (hcp : containsSub httpPat h = false)
    (hslash : ∀ c ∈ h, (c == '/') = false) :
    hostnameOf h = h := by
  unfold hostnameOf
  rw [replaceAll_of_not_contains httpsPat [] h hcs,
    replaceAll_of_not_contains httpPat [] h hcp]
  exact List.takeWhile_eq_self_iff.mpr (fun c hc => by simp [hslash c hc])

theorem hostnameOf_url (h p : List Char)
    (hcs : containsSub httpsPat (h ++ p) = false)
    (hcp : containsSub httpPat (h ++ p) = false)
    (hslash : ∀ c ∈ h, (c == '/') = false)
    (hpath : p = [] ∨ ∃ rest, p = '/' :: rest) :
    hostnameOf (httpsPat ++ (h ++ p)) = h := by
  unfold hostnameOf
  rw [show httpsPat = 'h' :: ['t', 't', 'p', 's', ':', '/', '/'] from rfl]
  rw [replaceAll_strip_head 'h' ['t', 't', 'p', 's', ':', '/', '/'] (h ++ p)]
  rw [show ('h' :: ['t', 't', 'p', 's', ':', '/', '/'] : List Char) = httpsPat from rfl]
  rw [replaceAll_of_not_contains httpsPat [] (h ++ p) hcs,
    replaceAll_of_not_contains httpPat [] (h ++ p) hcp]
  rw [List.takeWhile_append_of_pos (fun c hc => by simp [hslash c hc])]
  cases hpath with
  | inl hnil => subst hnil; simp
  | inr hsl =>
    obtain ⟨rest, hrest⟩ := hsl
    subst hrest
    rw [List.takeWhile_cons_of_neg (by simp)]
    simp

theorem setAliveFirst_none (hostname : List Char) (alive : Bool) :
    ∀ rows : List SubRow, (∀ r ∈ rows, r.subdomain ≠ hostname) →
      setAliveFirst hostname alive rows = none := by
  intro rows
  induction rows with
  | nil => intro _; rfl
  | cons r rs ih =>
    intro hall
    rw [setAliveFirst]
    rw [if_neg ?hne]
    case hne =>
      simp only [beq_iff_eq]
      exact hall r (by simp)
    rw [ih (fun q hq => hall q (by simp [hq]))]
    rfl

theorem setAliveFirst_found (hostname : List Char) (alive : Bool) :
    ∀ rows : List SubRow, (∃ r ∈ rows, r.subdomain = hostname) →
      ∃ rows2, setAliveFirst hostname alive rows = some rows2 ∧
        ∃ r ∈ rows2, r.subdomain = hostname ∧ r.is_alive = alive := by
  intro rows
  induction rows with
  | nil => intro hex; simp at hex
  | cons r rs ih =>
    intro hex
    by_cases hr : r.subdomain = hostname
    · refine ⟨{ r with is_alive := alive } :: rs, ?_, ?_⟩
      · rw [setAliveFirst, if_pos (by simp [hr])]
      · exact ⟨{ r with is_alive := alive }, by simp, hr, rfl⟩
    · obtain ⟨q, hq, hqs⟩ := hex
      have hqrs : q ∈ rs := by
        cases List.mem_cons.mp hq with
        | inl heq => subst heq; exact absurd hqs hr
        | inr hm => exact hm
      obtain ⟨rows2, hsome, w, hw, hws, hwa⟩ := ih ⟨q, hqrs, hqs⟩
      refine ⟨r :: rows2, ?_, w, by simp [hw], hws, hwa⟩
      rw [setAliveFirst, if_neg (by simp [hr]), hsome]
      rfl

/-- C8: for a hostname `h` free of slashes and scheme substrings,
`update_subdomain_alive` on the URL form `https://h<path>` and on the bare
`h` produce the same repository state and return value: the input is
normalized to `h` before matching; when a row with key `h` exists the call
returns True and the matched row carries the new `is_alive` value, and when
no such row exists the call returns False with the table unchanged. -/
theorem update_subdomain_alive_normalizes (h p : List Char) (rows : List SubRow)
    (alive : Bool)
    (hslash : ∀ c ∈ h, (c == '/') = false)
    (hcs : containsSub httpsPat (h ++ p) = false)
    (hcp : containsSub httpPat (h ++ p) = false)
    (hpath : p = [] ∨ ∃ rest, p = '/' :: rest) :
    update_subdomain_alive rows (httpsPat ++ (h ++ p)) alive =
      update_subdomain_alive rows h alive ∧
    ((∀ r ∈ rows, r.subdomain ≠ h) →
      update_subdomain_alive rows h alive = (rows, false)) ∧
    ((∃ r ∈ rows, r.subdomain = h) →
      (update_subdomain_alive rows h alive).2 = true ∧
      ∃ r ∈ (update_subdomain_alive rows h alive).1,
        r.subdomain = h ∧ r.is_alive = alive) := by
  have hurl : hostnameOf (httpsPat ++ (h ++ p)) = h :=
    hostnameOf_url h p hcs hcp hslash hpath
  have hid : hostnameOf h = h :=
    hostnameOf_id h (containsSub_append_false _ h p hcs)
      (containsSub_append_false _ h p hcp) hslash
  refine ⟨?_, ?_, ?_⟩
  · unfold update_subdomain_alive
    rw [hurl, hid]
  · intro hnone
    unfold update_subdomain_alive
    rw [hid, setAliveFirst_none h alive rows hnone]
  · intro hex
    obtain ⟨rows2, hsome, w, hw, hws, hwa⟩ := setAliveFirst_found h alive rows hex
    unfold update_subdomain_alive
    rw [hid, hsome]
    exact ⟨rfl, w, hw, hws, hwa⟩

/-- Witness for C8 at the concrete inputs of the spec: the URL form
https://foo.bar/x and the bare hostname foo.bar acting on a one-row table. -/
theorem update_subdomain_alive_normalizes_witness :
    update_subdomain_alive
      [⟨['e', 'x'], ['f', 'o', 'o', '.', 'b', 'a', 'r'], ['t'], false⟩]
      (httpsPat ++ (['f', 'o', 'o', '.', 'b', 'a', 'r'] ++ ['/', 'x'])) true =
    update_subdomain_alive
      [⟨['e', 'x'], ['f', 'o', 'o', '.', 'b', 'a', 'r'], ['t'], false⟩]
      ['f', 'o', 'o', '.', 'b', 'a', 'r'] true :=
  (update_subdomain_alive_normalizes
    ['f', 'o', 'o', '.', 'b', 'a', 'r'] ['/', 'x']
    [⟨['e', 'x'], ['f', 'o', 'o', '.', 'b', 'a', 'r'], ['t'], false⟩] true
    (by decide) (by decide) (by decide)
    (Or.inr ⟨['x'], rfl⟩)).1

end Recon
